import Mathlib

/-!
Verification of the paracom boundary-detection pipeline
(`src/paracom/paracom.py`), shallowly embedded in Lean.

The oracle (the external text-completion service) is modelled as a pure
function from window ordinal and attempt number to the textual response,
so every run of the pipeline is a deterministic function of that oracle
behaviour.
-/

namespace Paracom

/-- Python whitespace characters (ASCII range) matched by the whitespace
class of the response pattern. -/
def isPySpace (c : Char) : Bool :=
  c = ' ' || c = '\t' || c = '\n' || c = '\r' || c = '\x0b' || c = '\x0c'

/-- Split a character list on a separator character, keeping empty segments,
as Python str.split with an explicit separator does. -/
def splitOnChar (sep : Char) : List Char → List (List Char)
  | [] => [[]]
  | c :: rest =>
    if c = sep then [] :: splitOnChar sep rest
    else
      match splitOnChar sep rest with
      | [] => [[c]]
      | g :: gs => (c :: g) :: gs

/-- One or more decimal digits. -/
def matchesDigits (cs : List Char) : Bool :=
  !cs.isEmpty && cs.all Char.isDigit

/-- Whether a newline-free string matches the strict comma-separated-integer
pattern used on oracle responses: one or more digits, then any number of
groups of a comma, optional whitespace and one or more digits. -/
def isCsvLine (s : String) : Bool :=
  match splitOnChar ',' s.data with
  | [] => false
  | p0 :: rest => matchesDigits p0 && rest.all (fun p => matchesDigits (p.dropWhile isPySpace))

/-- Numeric value of one comma-separated piece, as Python int: surrounding
whitespace stripped, then read as a decimal numeral. -/
def pyIntOfChars (cs : List Char) : Nat :=
  let t := ((cs.dropWhile isPySpace).reverse.dropWhile isPySpace).reverse
  t.foldl (fun a c => a * 10 + (c.toNat - ('0').toNat)) 0

/-- Parse a matched comma-separated line into its list of integers. -/
def parseCsv (s : String) : List Nat :=
  (splitOnChar ',' s.data).map pyIntOfChars

/-- The lines of a response, split on newline characters. -/
def responseLines (content : String) : List String :=
  (splitOnChar '\n' content.data).map (fun cs => String.mk cs)

/-- The lines of a response that match the comma-separated-integer pattern. -/
def csvLinesOf (content : String) : List String :=
  (responseLines content).filter isCsvLine

/-- The whole response joined onto a single line, with commas replacing
newlines. -/
def joinedContent (content : String) : String :=
  String.mk (content.data.map (fun c => if c = '\n' then ',' else c))

/-- Layered parse of one oracle response: if exactly one line matches the
comma-separated-integer pattern, parse that line; otherwise, if the whole
response joined with commas matches, parse that; otherwise fail. -/
def parseContent (content : String) : Option (List Nat) :=
  if (csvLinesOf content).length = 1 then
    some (parseCsv ((csvLinesOf content).headD (String.mk [])))
  else if isCsvLine (joinedContent content) then
    some (parseCsv (joinedContent content))
  else
    none

/-- Up to five attempts per window: each attempt re-issues the request and
tries to parse the response; the first attempt that parses is kept. -/
def attemptLoop (resp : Nat → String) : Option (List Nat) :=
  (List.range 5).findSome? (fun a => parseContent (resp a))

/-- The windowing loop of split_nl_into_windows, with explicit fuel: from
position i, take a window of window_size lines, stop if the window reaches
or passes the end, otherwise advance by window_size - overlap. Returns
none when the fuel is exhausted (the loop would still be running). -/
def splitNlAux (window_size overlap : Nat) (nl : List (Nat × String)) :
    Nat → Nat → Option (List (List (Nat × String)))
  | 0, _ => none
  | fuel + 1, i =>
    if i < nl.length then
      let window := (nl.drop i).take window_size
      if nl.length ≤ i + window_size then some [window]
      else
        match splitNlAux window_size overlap nl fuel (i + (window_size - overlap)) with
        | none => none
        | some ws => some (window :: ws)
    else some []

/-- Split a list of (line_number, text) tuples into windows with the given
window_size and overlap. The loop advances by at least one position per
iteration whenever overlap < window_size, so length + 1 iterations always
suffice then. -/
def split_nl_into_windows (nl : List (Nat × String)) (window_size overlap : Nat) :
    List (List (Nat × String)) :=
  (splitNlAux window_size overlap nl (nl.length + 1) 0).getD []

/-- Attach 1-based line numbers to the input lines. -/
def numberedLines (lines : List String) : List (Nat × String) :=
  lines.enum.map (fun p => (p.1 + 1, p.2))

/-- Whether a line is kept for analysis: non-empty and starting with none of
the skip prefixes. -/
def keepLine (skips : List String) (line : String) : Bool :=
  line ≠ String.mk [] && !(skips.any (fun p => p.data.isPrefixOf line.data))

/-- The numbered lines that survive skip-prefix filtering; their numbers were
assigned before filtering. -/
def filteredNumberedLines (lines : List String) (skips : List String) :
    List (Nat × String) :=
  (numberedLines lines).filter (fun nl => keepLine skips nl.2)

/-- Lower acceptance bound of a window: its first line number, pushed in by
the boundary margin except on the first window of the pass. -/
def lowerBound (window : List (Nat × String)) (wi boundary_margin : Nat) : Int :=
  let first_line_num : Int := ((window.headD (0, String.mk [])).1 : Int)
  if wi ≠ 0 then first_line_num + boundary_margin else first_line_num

/-- Upper acceptance bound of a window: its last line number, pushed in by
the boundary margin except on the last window of the pass. -/
def upperBound (window : List (Nat × String)) (wi nWindows boundary_margin : Nat) : Int :=
  let last_line_num : Int := ((window.getLastD (0, String.mk [])).1 : Int)
  if wi ≠ nWindows - 1 then last_line_num - boundary_margin else last_line_num

/-- The candidates of one window that are accepted as turn points: members of
the window's own index set lying between the window's bounds. -/
def acceptedOfWindow (nums : List Nat) (window : List (Nat × String))
    (wi nWindows boundary_margin : Nat) : List Nat :=
  nums.filter (fun num =>
    decide (num ∈ window.map Prod.fst ∧
      lowerBound window wi boundary_margin ≤ (num : Int) ∧
      (num : Int) ≤ upperBound window wi nWindows boundary_margin))

/-- The turn points contributed by one window: empty if the window is empty
or no attempt parsed, otherwise the accepted candidates of the parsed list. -/
def windowTurns (respw : Nat → String) (window : List (Nat × String))
    (wi nWindows boundary_margin : Nat) : Finset Nat :=
  if window = [] then ∅
  else
    match attemptLoop respw with
    | none => ∅
    | some nums => (acceptedOfWindow nums window wi nWindows boundary_margin).toFinset

/-- The set of turn points detected in one pass: the union of every window's
contribution. -/
def detectedTurnSet (oracle : Nat → Nat → String) (lines : List String)
    (window_size overlap boundary_margin : Nat) (skips : List String) : Finset Nat :=
  let windows := split_nl_into_windows (filteredNumberedLines lines skips) window_size overlap
  ((List.range windows.length).map (fun wi =>
      windowTurns (oracle wi) (windows.getD wi []) wi windows.length boundary_margin)).foldl
    (· ∪ ·) ∅

/-- One detection trial: number the lines, filter them, window them, query
the oracle per window, filter candidates, and return the sorted set of
detected turn line numbers. -/
def detect_conversation_turns_single (oracle : Nat → Nat → String) (lines : List String)
    (window_size overlap boundary_margin : Nat) (skips : List String) : List Nat :=
  (detectedTurnSet oracle lines window_size overlap boundary_margin skips).sort (· ≤ ·)

/-- Insert a blank line before each line whose 1-based number is a turn
point, and join everything with newlines. -/
def insert_blank_lines (lines : List String) (turn_points : List Nat) : String :=
  let output_lines :=
    lines.enum.flatMap (fun p => if (p.1 + 1) ∈ turn_points then [String.mk [], p.2] else [p.2])
  String.intercalate (String.mk ['\n']) output_lines

/-- The trial results of the main consensus loop: one detection pass per
trial, run with the default window parameters, each trial seeing its own
oracle behaviour. -/
def trialResults (oracle : Nat → Nat → Nat → String) (lines : List String)
    (skips : List String) (trials : Nat) : List (List Nat) :=
  (List.range trials).map (fun i =>
    detect_conversation_turns_single (oracle i) lines 30 10 5 skips)

/-- Total number of occurrences of a line number across all trial results,
as the Counter of the source accumulates it. -/
def totalCount (trial_results : List (List Nat)) (num : Nat) : Nat :=
  (trial_results.map (fun t => t.count num)).sum

/-- Majority merge of the trial results: keep the line numbers occurring at
least floor(trials / 2) + 1 times, sorted. -/
def mergeTrials (trial_results : List (List Nat)) (trials : Nat) : List Nat :=
  let threshold := trials / 2 + 1
  ((trial_results.flatten.toFinset).filter
      (fun num => threshold ≤ totalCount trial_results num)).sort (· ≤ ·)

/-- The final turn points computed by main: a single trial's result when
trials ≤ 1, otherwise the majority merge of the trials. -/
def mainTurnPoints (oracle : Nat → Nat → Nat → String) (lines : List String)
    (skips : List String) (trials : Nat) : List Nat :=
  if trials ≤ 1 then detect_conversation_turns_single (oracle 0) lines 30 10 5 skips
  else mergeTrials (trialResults oracle lines skips trials) trials

/-- Concrete three-line numbered input used by the witnesses. -/
def sampleNl : List (Nat × String) :=
  [(1, String.mk ['a']), (2, String.mk ['b']), (3, String.mk ['c'])]

/-! Helper lemmas. -/

theorem flatten_map_singleton {α β : Type} (f : α → β) (l : List α) :
    (l.map (fun p => [f p])).flatten = l.map f := by
  induction l with
  | nil => rfl
  | cons a l ih => simp [ih]

theorem findSome?_range_none {α : Type} (f : Nat → Option α) (n : Nat) :
    (List.range n).findSome? f = none ↔ ∀ b, b < n → f b = none := by
  induction n with
  | zero => simp
  | succ n ih =>
      rw [List.range_succ, List.findSome?_append]
      constructor
      · intro h
        have h1 : (List.range n).findSome? f = none := by
          cases h' : (List.range n).findSome? f with
          | none => rfl
          | some w => rw [h'] at h; simp [Option.or_some] at h
        have h2 : f n = none := by
          rw [h1, Option.none_or] at h
          cases hf : f n with
          | none => rfl
          | some w => simp [List.findSome?_cons, hf] at h
        intro b hb
        rcases Nat.lt_succ_iff_lt_or_eq.mp hb with hlt | heq
        · exact ih.mp h1 b hlt
        · rw [heq]; exact h2
      · intro hall
        have h1 : (List.range n).findSome? f = none :=
          ih.mpr (fun b hb => hall b (by omega))
        rw [h1, Option.none_or]
        simp [List.findSome?_cons, hall n (by omega)]

theorem findSome?_range_some {α : Type} (f : Nat → Option α) (n : Nat) (v : α) :
    (List.range n).findSome? f = some v ↔
      ∃ a, a < n ∧ f a = some v ∧ ∀ b, b < a → f b = none := by
  induction n with
  | zero => simp
  | succ n ih =>
      rw [List.range_succ, List.findSome?_append]
      constructor
      · intro h
        cases h' : (List.range n).findSome? f with
        | some w =>
            rw [h', Option.or_some] at h
            obtain ⟨a, ha, hfa, hmin⟩ := ih.mp (h'.trans h)
            exact ⟨a, by omega, hfa, hmin⟩
        | none =>
            rw [h', Option.none_or] at h
            have hfn : f n = some v := by
              cases hf : f n with
              | none => simp [List.findSome?_cons, hf] at h
              | some w => simpa [List.findSome?_cons, hf] using h
            exact ⟨n, by omega, hfn, fun b hb => (findSome?_range_none f n).mp h' b hb⟩
      · rintro ⟨a, ha, hfa, hmin⟩
        by_cases han : a < n
        · have h1 : (List.range n).findSome? f = some v := ih.mpr ⟨a, han, hfa, hmin⟩
          rw [h1, Option.or_some]
        · have han' : a = n := by omega
          subst han'
          have h1 : (List.range a).findSome? f = none := (findSome?_range_none f a).mpr hmin
          rw [h1, Option.none_or]
          simp [List.findSome?_cons, hfa]

theorem mem_foldl_union {α : Type} (f : α → Finset Nat) (l : List α) (init : Finset Nat) (x : Nat) :
    x ∈ (l.map f).foldl (· ∪ ·) init ↔ x ∈ init ∨ ∃ a ∈ l, x ∈ f a := by
  induction l generalizing init with
  | nil => simp
  | cons a l ih =>
      simp only [List.map_cons, List.foldl_cons, ih, Finset.mem_union, List.mem_cons]
      constructor
      · rintro ((h | h) | ⟨b, hb, hx⟩)
        · exact Or.inl h
        · exact Or.inr ⟨a, Or.inl rfl, h⟩
        · exact Or.inr ⟨b, Or.inr hb, hx⟩
      · rintro (h | ⟨b, (rfl | hb), hx⟩)
        · exact Or.inl (Or.inl h)
        · exact Or.inl (Or.inr hx)
        · exact Or.inr ⟨b, hb, hx⟩

theorem mem_detect_single (oracle : Nat → Nat → String) (lines : List String)
    (window_size overlap boundary_margin : Nat) (skips : List String) (num : Nat) :
    num ∈ detect_conversation_turns_single oracle lines window_size overlap boundary_margin skips ↔
      ∃ wj, wj < (split_nl_into_windows (filteredNumberedLines lines skips) window_size overlap).length ∧
        num ∈ windowTurns (oracle wj)
          ((split_nl_into_windows (filteredNumberedLines lines skips) window_size overlap).getD wj [])
          wj (split_nl_into_windows (filteredNumberedLines lines skips) window_size overlap).length
          boundary_margin := by
  unfold detect_conversation_turns_single detectedTurnSet
  rw [Finset.mem_sort]
  simp only [mem_foldl_union, Finset.not_mem_empty, false_or, List.mem_range]

theorem splitNlAux_isSome (W O : Nat) (nl : List (Nat × String)) (hOW : O < W) :
    ∀ fuel i, nl.length - i < fuel → (splitNlAux W O nl fuel i).isSome := by
  intro fuel
  induction fuel with
  | zero => intro i h; omega
  | succ fuel ih =>
      intro i h
      unfold splitNlAux
      by_cases hi : i < nl.length
      · simp only [hi, if_true]
        by_cases hend : nl.length ≤ i + W
        · simp [hend]
        · simp only [hend, if_false]
          have hrec2 := ih (i + (W - O)) (by omega)
          cases hrec : splitNlAux W O nl fuel (i + (W - O)) with
          | none => rw [hrec] at hrec2; simp at hrec2
          | some ws => simp [hrec]
      · simp [hi]

theorem splitNlAux_spec (W O : Nat) (nl : List (Nat × String)) (hOW : O < W) :
    ∀ fuel i ws, splitNlAux W O nl fuel i = some ws →
      (nl.length ≤ i → ws = []) ∧
      (i < nl.length →
        ws ≠ [] ∧
        ∀ k, k < ws.length →
          ws.getD k [] = (nl.drop (i + k * (W - O))).take W ∧
          (k + 1 < ws.length → i + k * (W - O) + W < nl.length) ∧
          (k + 1 = ws.length → nl.length ≤ i + k * (W - O) + W)) := by
  intro fuel
  induction fuel with
  | zero => intro i ws h; simp [splitNlAux] at h
  | succ fuel ih =>
      intro i ws h
      unfold splitNlAux at h
      by_cases hi : i < nl.length
      · simp only [hi, if_true] at h
        by_cases hend : nl.length ≤ i + W
        · simp only [hend, if_true, Option.some.injEq] at h
          subst h
          refine ⟨fun hle => absurd hi (by omega), fun _ => ⟨by simp, ?_⟩⟩
          intro k hk
          simp only [List.length_cons, List.length_nil] at hk
          have hk0 : k = 0 := by omega
          subst hk0
          refine ⟨by simp, fun hcon => by simp at hcon, fun _ => by simpa using hend⟩
        · simp only [hend, if_false] at h
          cases hrec : splitNlAux W O nl fuel (i + (W - O)) with
          | none => rw [hrec] at h; simp at h
          | some ws' =>
              rw [hrec] at h
              simp only [Option.some.injEq] at h
              subst h
              have hlt : i + W < nl.length := by omega
              have hi' : i + (W - O) < nl.length := by omega
              have IH := (ih (i + (W - O)) ws' hrec).2 hi'
              refine ⟨fun hle => absurd hi (by omega), fun _ => ⟨by simp, ?_⟩⟩
              intro k hk
              cases k with
              | zero =>
                  refine ⟨by simp, fun _ => by simpa using hlt, fun hone => ?_⟩
                  exfalso
                  have : ws'.length = 0 := by simpa using hone.symm
                  exact IH.1 (List.length_eq_zero.mp this)
              | succ k' =>
                  simp only [List.length_cons] at hk
                  have hk' : k' < ws'.length := by omega
                  obtain ⟨hslice, hmid, hlast⟩ := IH.2 k' hk'
                  have harith : i + (k' + 1) * (W - O) = i + (W - O) + k' * (W - O) := by ring
                  refine ⟨?_, ?_, ?_⟩
                  · rw [List.getD_cons_succ, hslice, harith]
                  · intro hlt2
                    simp only [List.length_cons] at hlt2
                    have := hmid (by omega)
                    omega
                  · intro heq
                    simp only [List.length_cons] at heq
                    have := hlast (by omega)
                    omega
      · simp only [hi, if_false, Option.some.injEq] at h
        subst h
        exact ⟨fun _ => rfl, fun hcon => absurd hcon hi⟩

theorem splitNlAux_flatten (W O : Nat) (nl : List (Nat × String)) (hOW : O < W) :
    ∀ fuel i ws, splitNlAux W O nl fuel i = some ws →
      ∀ x, x ∈ ws.flatten ↔ x ∈ nl.drop i := by
  intro fuel
  induction fuel with
  | zero => intro i ws h; simp [splitNlAux] at h
  | succ fuel ih =>
      intro i ws h x
      unfold splitNlAux at h
      by_cases hi : i < nl.length
      · simp only [hi, if_true] at h
        by_cases hend : nl.length ≤ i + W
        · simp only [hend, if_true, Option.some.injEq] at h
          subst h
          have htake : (nl.drop i).take W = nl.drop i :=
            List.take_of_length_le (by simp; omega)
          simp [htake]
        · simp only [hend, if_false] at h
          cases hrec : splitNlAux W O nl fuel (i + (W - O)) with
          | none => rw [hrec] at h; simp at h
          | some ws' =>
              rw [hrec] at h
              simp only [Option.some.injEq] at h
              subst h
              have IH := ih (i + (W - O)) ws' hrec x
              simp only [List.flatten_cons, List.mem_append, IH]
              constructor
              · rintro (hx | hx)
                · exact (List.take_sublist W (nl.drop i)).mem hx
                · have : nl.drop (i + (W - O)) = (nl.drop i).drop (W - O) := by
                    rw [List.drop_drop]
                  rw [this] at hx
                  exact (List.drop_sublist (W - O) (nl.drop i)).mem hx
              · intro hx
                rw [← List.take_append_drop W (nl.drop i), List.mem_append] at hx
                rcases hx with hx | hx
                · exact Or.inl hx
                · right
                  rw [List.drop_drop] at hx
                  have hsub : List.Sublist (nl.drop (i + W)) (nl.drop (i + (W - O))) := by
                    have : i + W = (i + (W - O)) + (W - (W - O)) := by omega
                    rw [this, ← List.drop_drop]
                    exact List.drop_sublist _ _
                  exact hsub.mem hx
      · simp only [hi, if_false, Option.some.injEq] at h
        subst h
        have : nl.drop i = [] := List.drop_eq_nil_of_le (by omega)
        simp [this]

theorem splitNlAux_windows (W O : Nat) (nl : List (Nat × String)) :
    ∀ fuel i ws, splitNlAux W O nl fuel i = some ws →
      ∀ w ∈ ws, w.length ≤ W ∧ ∀ x ∈ w, x ∈ nl := by
  intro fuel
  induction fuel with
  | zero => intro i ws h; simp [splitNlAux] at h
  | succ fuel ih =>
      intro i ws h w hw
      unfold splitNlAux at h
      by_cases hi : i < nl.length
      · simp only [hi, if_true] at h
        have hwindow : ∀ x ∈ (nl.drop i).take W, x ∈ nl := fun x hx =>
          ((List.take_sublist W (nl.drop i)).trans (List.drop_sublist i nl)).mem hx
        by_cases hend : nl.length ≤ i + W
        · simp only [hend, if_true, Option.some.injEq] at h
          subst h
          simp only [List.mem_singleton] at hw
          subst hw
          exact ⟨by simp, hwindow⟩
        · simp only [hend, if_false] at h
          cases hrec : splitNlAux W O nl fuel (i + (W - O)) with
          | none => rw [hrec] at h; simp at h
          | some ws' =>
              rw [hrec] at h
              simp only [Option.some.injEq] at h
              subst h
              rcases List.mem_cons.mp hw with hw | hw
              · subst hw
                exact ⟨by simp, hwindow⟩
              · exact ih (i + (W - O)) ws' hrec w hw
      · simp only [hi, if_false, Option.some.injEq] at h
        subst h
        simp at hw

theorem split_nl_eq (W O : Nat) (nl : List (Nat × String)) (hOW : O < W) :
    splitNlAux W O nl (nl.length + 1) 0 = some (split_nl_into_windows nl W O) := by
  have h := splitNlAux_isSome W O nl hOW (nl.length + 1) 0 (by omega)
  cases hrec : splitNlAux W O nl (nl.length + 1) 0 with
  | none => rw [hrec] at h; simp at h
  | some ws => unfold split_nl_into_windows; rw [hrec]; rfl

/-- Claim C3: under 0 <= overlap < window_size the windows cover exactly the input
index range, each window has at most window_size lines, and the first window
is the first window_size lines of the input. -/
theorem window_coverage (nl : List (Nat × String)) (W O : Nat) (hOW : O < W) :
    (∀ idx, (∃ w ∈ split_nl_into_windows nl W O, idx ∈ w.map Prod.fst) ↔
      idx ∈ nl.map Prod.fst) ∧
    (∀ w ∈ split_nl_into_windows nl W O, w.length ≤ W) ∧
    (nl ≠ [] → (split_nl_into_windows nl W O).headD [] = nl.take W) := by
  have heq := split_nl_eq W O nl hOW
  have hflat := splitNlAux_flatten W O nl hOW (nl.length + 1) 0 _ heq
  simp only [List.drop_zero] at hflat
  refine ⟨?_, ?_, ?_⟩
  · intro idx
    constructor
    · rintro ⟨w, hw, hidx⟩
      rcases List.mem_map.mp hidx with ⟨p, hp, rfl⟩
      exact List.mem_map.mpr ⟨p, (hflat p).mp (List.mem_flatten.mpr ⟨w, hw, hp⟩), rfl⟩
    · intro hidx
      rcases List.mem_map.mp hidx with ⟨p, hp, rfl⟩
      rcases List.mem_flatten.mp ((hflat p).mpr hp) with ⟨w, hw, hpw⟩
      exact ⟨w, hw, List.mem_map.mpr ⟨p, hpw, rfl⟩⟩
  · intro w hw
    exact (splitNlAux_windows W O nl (nl.length + 1) 0 _ heq w hw).1
  · intro hne
    have h0 : 0 < nl.length := List.length_pos.mpr hne
    have hspec := (splitNlAux_spec W O nl hOW (nl.length + 1) 0 _ heq).2 h0
    cases hcase : split_nl_into_windows nl W O with
    | nil => exact absurd hcase hspec.1
    | cons a l =>
        have hlen : 0 < (split_nl_into_windows nl W O).length := by rw [hcase]; simp
        have h1 := (hspec.2 0 hlen).1
        rw [hcase] at h1
        rw [List.getD_cons_zero] at h1
        simp only [List.headD_cons]
        rw [h1]
        simp

/-- Claim C8: with overlap < window_size the windowing loop terminates within
length + 1 iterations; every non-final window stops strictly short of the
end, and the final window is the whole remaining suffix. -/
theorem window_loop_terminates (nl : List (Nat × String)) (W O : Nat) (hOW : O < W) :
    ∃ ws, splitNlAux W O nl (nl.length + 1) 0 = some ws ∧
      split_nl_into_windows nl W O = ws ∧
      (∀ k, k + 1 < ws.length → k * (W - O) + W < nl.length) ∧
      (nl ≠ [] → ∃ j, nl.length ≤ j + W ∧ ws.getLast? = some (nl.drop j)) := by
  have heq := split_nl_eq W O nl hOW
  refine ⟨split_nl_into_windows nl W O, heq, rfl, ?_, ?_⟩
  · intro k hk
    have h0 : 0 < nl.length := by
      by_contra hcon
      have hz : nl.length ≤ 0 := by omega
      have := (splitNlAux_spec W O nl hOW (nl.length + 1) 0 _ heq).1 hz
      rw [this] at hk
      simp at hk
    have hspec := (splitNlAux_spec W O nl hOW (nl.length + 1) 0 _ heq).2 h0
    have := (hspec.2 k (by omega)).2.1 hk
    simpa using this
  · intro hne
    have h0 : 0 < nl.length := List.length_pos.mpr hne
    have hspec := (splitNlAux_spec W O nl hOW (nl.length + 1) 0 _ heq).2 h0
    set ws := split_nl_into_windows nl W O with hws
    have hlen : 0 < ws.length := by
      cases hcase : ws with
      | nil => exact absurd hcase hspec.1
      | cons a l => simp
    set k := ws.length - 1 with hkdef
    obtain ⟨hslice, _, hlast⟩ := hspec.2 k (by omega)
    have hend := hlast (by omega)
    refine ⟨k * (W - O), by omega, ?_⟩
    have htake : (nl.drop (0 + k * (W - O))).take W = nl.drop (0 + k * (W - O)) :=
      List.take_of_length_le (by simp; omega)
    rw [htake] at hslice
    have hgd : ws.getLast? = some (ws.getD k []) := by
      rw [List.getLast?_eq_get?]
      cases hcase : ws with
      | nil => rw [hcase] at hlen; simp at hlen
      | cons a l =>
          rw [← hcase]
          rw [List.getD_eq_get?]
          cases hget : ws.get? k with
          | none =>
              rw [List.get?_eq_none] at hget
              omega
          | some v => simp
    rw [hgd, hslice]
    simp

/-- Claim C4: consecutive windows share exactly overlap elements. -/
theorem window_overlap_shared (nl : List (Nat × String)) (W O : Nat) (hOW : O < W)
    (hnd : nl.Nodup) (k : Nat) (hk : k + 1 < (split_nl_into_windows nl W O).length) :
    (((split_nl_into_windows nl W O).getD k []).filter
        (fun x => decide (x ∈ (split_nl_into_windows nl W O).getD (k + 1) []))).length = O := by
  have heq := split_nl_eq W O nl hOW
  have h0 : 0 < nl.length := by
    by_contra hcon
    have hz : nl.length ≤ 0 := by omega
    have hnil := (splitNlAux_spec W O nl hOW (nl.length + 1) 0 _ heq).1 hz
    rw [hnil] at hk
    simp at hk
  have hspec := (splitNlAux_spec W O nl hOW (nl.length + 1) 0 _ heq).2 h0
  obtain ⟨hslice, hmid, _⟩ := hspec.2 k (by omega)
  obtain ⟨hslice1, _, _⟩ := hspec.2 (k + 1) hk
  have hjW : 0 + k * (W - O) + W < nl.length := hmid hk
  have hdrop1 : nl.drop (0 + (k + 1) * (W - O)) = (nl.drop (0 + k * (W - O))).drop (W - O) := by
    rw [List.drop_drop]
    congr 1
    ring
  rw [hslice, hslice1, hdrop1]
  set d := nl.drop (0 + k * (W - O)) with hd
  have hdlen : d.length = nl.length - (0 + k * (W - O)) := by rw [hd]; simp
  have hWsum : (W - O) + O = W := by omega
  have hdecomp : d.take W = d.take (W - O) ++ (d.drop (W - O)).take O := by
    conv_lhs => rw [← hWsum, List.take_add]
  have hdnd : d.Nodup := (List.drop_sublist _ nl).nodup hnd
  have hpresuf : d.take (W - O) ++ d.drop (W - O) = d := List.take_append_drop _ d
  have hdisj : (d.take (W - O)).Disjoint (d.drop (W - O)) := by
    have hnd2 := hdnd
    rw [← hpresuf] at hnd2
    exact (List.nodup_append.mp hnd2).2.2
  have hov_mem : ∀ x ∈ (d.drop (W - O)).take O, x ∈ (d.drop (W - O)).take W := by
    intro x hx
    have hsub : List.Sublist ((d.drop (W - O)).take O) ((d.drop (W - O)).take W) := by
      have : ((d.drop (W - O)).take W).take O = (d.drop (W - O)).take O := by
        rw [List.take_take]
        congr 1
        omega
      rw [← this]
      exact List.take_sublist _ _
    exact hsub.mem hx
  have hpre_not : ∀ x ∈ d.take (W - O), x ∉ (d.drop (W - O)).take W := by
    intro x hx hmem
    exact hdisj hx ((List.take_sublist _ _).mem hmem)
  rw [hdecomp, List.filter_append]
  have hfilter_pre : (d.take (W - O)).filter
      (fun x => decide (x ∈ (d.drop (W - O)).take W)) = [] := by
    rw [List.filter_eq_nil_iff]
    intro a ha
    simp only [decide_eq_true_eq]
    exact hpre_not a ha
  have hfilter_ov : ((d.drop (W - O)).take O).filter
      (fun x => decide (x ∈ (d.drop (W - O)).take W)) = (d.drop (W - O)).take O := by
    rw [List.filter_eq_self]
    intro a ha
    simp only [decide_eq_true_eq]
    exact hov_mem a ha
  rw [hfilter_pre, hfilter_ov]
  simp only [List.nil_append, List.length_take, List.length_drop]
  omega

/-- Claim C5: the layered parse strategy of the oracle response: a unique
pattern-matching line is parsed; otherwise the comma-joined whole response
is parsed when it matches; otherwise the attempt fails, and up to five
attempts are made per window, stopping at the first that parses. -/
theorem layered_parse_strategy :
    (∀ content : String,
      ((csvLinesOf content).length = 1 →
        parseContent content = some (parseCsv ((csvLinesOf content).headD (String.mk [])))) ∧
      ((csvLinesOf content).length ≠ 1 → isCsvLine (joinedContent content) = true →
        parseContent content = some (parseCsv (joinedContent content))) ∧
      ((csvLinesOf content).length ≠ 1 → isCsvLine (joinedContent content) = false →
        parseContent content = none)) ∧
    (∀ (resp : Nat → String) (v : List Nat),
      attemptLoop resp = some v ↔
        ∃ a, a < 5 ∧ parseContent (resp a) = some v ∧
          ∀ b, b < a → parseContent (resp b) = none) ∧
    (∀ resp : Nat → String,
      (∀ a, a < 5 → parseContent (resp a) = none) → attemptLoop resp = none) := by
  refine ⟨?_, ?_, ?_⟩
  · intro content
    refine ⟨fun h1 => ?_, fun h1 h2 => ?_, fun h1 h2 => ?_⟩
    · simp [parseContent, h1]
    · simp [parseContent, h1, h2]
    · simp [parseContent, h1, h2]
  · intro resp v
    exact findSome?_range_some (fun a => parseContent (resp a)) 5 v
  · intro resp h
    exact (findSome?_range_none (fun a => parseContent (resp a)) 5).mpr h

theorem layered_parse_strategy_witness :
    parseContent (String.mk ['5', ',', ' ', '2', '3']) =
      some (parseCsv ((csvLinesOf (String.mk ['5', ',', ' ', '2', '3'])).headD (String.mk []))) ∧
    attemptLoop (fun _ => String.mk []) = none :=
  have hnone : parseContent (String.mk []) = none := by decide
  ⟨(layered_parse_strategy.1 (String.mk ['5', ',', ' ', '2', '3'])).1 (by decide),
   layered_parse_strategy.2.2 (fun _ => String.mk []) (fun _ _ => hnone)⟩

/-- Claim C6: a window all five of whose oracle responses fail to parse
contributes no turn points, and the pass result is exactly what the other
windows contribute. -/
theorem abstention_silent (oracle : Nat → Nat → String) (lines : List String)
    (window_size overlap boundary_margin : Nat) (skips : List String) (wi : Nat)
    (hfail : ∀ a, a < 5 → parseContent (oracle wi a) = none) :
    windowTurns (oracle wi)
        ((split_nl_into_windows (filteredNumberedLines lines skips) window_size overlap).getD wi [])
        wi (split_nl_into_windows (filteredNumberedLines lines skips) window_size overlap).length
        boundary_margin = ∅ ∧
    ∀ num, num ∈ detect_conversation_turns_single oracle lines window_size overlap boundary_margin skips ↔
      ∃ wj, wj < (split_nl_into_windows (filteredNumberedLines lines skips) window_size overlap).length ∧
        wj ≠ wi ∧
        num ∈ windowTurns (oracle wj)
          ((split_nl_into_windows (filteredNumberedLines lines skips) window_size overlap).getD wj [])
          wj (split_nl_into_windows (filteredNumberedLines lines skips) window_size overlap).length
          boundary_margin := by
  have hA : attemptLoop (oracle wi) = none :=
    (findSome?_range_none (fun a => parseContent (oracle wi a)) 5).mpr hfail
  have hEmpty : ∀ w nW, windowTurns (oracle wi) w wi nW boundary_margin = ∅ := by
    intro w nW
    unfold windowTurns
    rw [hA]
    split <;> rfl
  refine ⟨hEmpty _ _, fun num => ?_⟩
  rw [mem_detect_single]
  constructor
  · rintro ⟨wj, hwj, hx⟩
    by_cases hji : wj = wi
    · subst hji
      rw [hEmpty] at hx
      exact absurd hx (Finset.not_mem_empty num)
    · exact ⟨wj, hwj, hji, hx⟩
  · rintro ⟨wj, hwj, _, hx⟩
    exact ⟨wj, hwj, hx⟩

theorem abstention_silent_witness :
    windowTurns ((fun _ _ => String.mk []) 0)
        ((split_nl_into_windows (filteredNumberedLines [String.mk ['a']] []) 2 1).getD 0 [])
        0 (split_nl_into_windows (filteredNumberedLines [String.mk ['a']] []) 2 1).length 0 = ∅ :=
  have hnone : parseContent (String.mk []) = none := by decide
  (abstention_silent (fun _ _ => String.mk []) [String.mk ['a']] 2 1 0 [] 0
    (fun _ _ => hnone)).1

/-- Claim C1: a candidate index is accepted as a turn point of a window if
and only if it is a proposed candidate, a member of the window's own index
set, and lies within the bounds lower and upper, where lower is the
window's first index plus the margin except on the first window, and upper
is the window's last index minus the margin except on the last window. -/
theorem margin_accept_iff (nums : List Nat) (window : List (Nat × String))
    (wi nWindows boundary_margin : Nat) (num : Nat) :
    num ∈ acceptedOfWindow nums window wi nWindows boundary_margin ↔
      num ∈ nums ∧ num ∈ window.map Prod.fst ∧
      (if wi = 0 then ((window.headD (0, String.mk [])).1 : Int)
       else ((window.headD (0, String.mk [])).1 : Int) + boundary_margin) ≤ (num : Int) ∧
      (num : Int) ≤
      (if wi = nWindows - 1 then ((window.getLastD (0, String.mk [])).1 : Int)
       else ((window.getLastD (0, String.mk [])).1 : Int) - boundary_margin) := by
  simp only [acceptedOfWindow, List.mem_filter, decide_eq_true_eq, lowerBound, upperBound]
  by_cases h : wi = 0 <;> by_cases h2 : wi = nWindows - 1 <;> simp [h, h2]

/-- Claim C9: inserting blank lines at an empty turn-point set returns
exactly the original lines joined by line breaks. -/
theorem insert_blank_lines_empty_id (lines : List String) :
    insert_blank_lines lines [] = String.intercalate (String.mk ['\n']) lines := by
  have h : lines.enum.flatMap
      (fun p => if (p.1 + 1) ∈ ([] : List Nat) then [String.mk [], p.2] else [p.2]) =
      lines.enum.map Prod.snd := by
    simp only [List.flatMap_def, List.not_mem_nil, if_false]
    exact flatten_map_singleton Prod.snd lines.enum
  unfold insert_blank_lines
  rw [h, List.enum_map_snd]


theorem totalCount_eq_countP (rs : List (List Nat)) (num : Nat)
    (h : ∀ t ∈ rs, t.Nodup) :
    totalCount rs num = rs.countP (fun t => decide (num ∈ t)) := by
  induction rs with
  | nil => rfl
  | cons t rs ih =>
      have ht : t.Nodup := h t (by simp)
      have hrest := ih (fun u hu => h u (by simp [hu]))
      unfold totalCount at hrest ⊢
      simp only [List.map_cons, List.sum_cons, List.countP_cons, hrest]
      by_cases hm : num ∈ t
      · rw [List.count_eq_one_of_mem ht hm]
        simp [hm]
        omega
      · rw [List.count_eq_zero_of_not_mem hm]
        simp [hm]

/-- Claim C2: with more than one trial, an index is in the final result iff
it occurs in at least floor(trials / 2) + 1 of the trial results; with one
trial the single trial result is the final result directly. -/
theorem consensus_majority (oracle : Nat → Nat → Nat → String) (lines : List String)
    (skips : List String) :
    (∀ trials, 1 < trials → ∀ num,
      (num ∈ mainTurnPoints oracle lines skips trials ↔
        trials / 2 + 1 ≤
          (trialResults oracle lines skips trials).countP (fun t => decide (num ∈ t)))) ∧
    mainTurnPoints oracle lines skips 1 =
      detect_conversation_turns_single (oracle 0) lines 30 10 5 skips := by
  constructor
  · intro trials htr num
    have hnot : ¬ trials ≤ 1 := by omega
    unfold mainTurnPoints
    rw [if_neg hnot]
    unfold mergeTrials
    rw [Finset.mem_sort, Finset.mem_filter]
    have hnd : ∀ t ∈ trialResults oracle lines skips trials, t.Nodup := by
      intro t ht
      unfold trialResults at ht
      rcases List.mem_map.mp ht with ⟨i, _, rfl⟩
      exact Finset.sort_nodup _ _
    rw [totalCount_eq_countP _ _ hnd]
    constructor
    · rintro ⟨_, hcount⟩
      exact hcount
    · intro hcount
      refine ⟨?_, hcount⟩
      have hpos : 0 < (trialResults oracle lines skips trials).countP
          (fun t => decide (num ∈ t)) := by omega
      rcases List.countP_pos_iff.mp hpos with ⟨t, ht, hp⟩
      simp only [decide_eq_true_eq] at hp
      rw [List.mem_toFinset]
      exact List.mem_flatten.mpr ⟨t, ht, hp⟩
  · unfold mainTurnPoints
    rw [if_pos (le_refl 1)]

theorem consensus_majority_witness :
    1 < 2 ∧
    ((1 : Nat) ∈ mainTurnPoints (fun _ _ _ => String.mk []) [] [] 2 ↔
      2 / 2 + 1 ≤
        (trialResults (fun _ _ _ => String.mk []) [] [] 2).countP
          (fun t => decide ((1 : Nat) ∈ t))) :=
  ⟨by decide,
   (consensus_majority (fun _ _ _ => String.mk []) [] []).1 2 (by decide) 1⟩


theorem numbered_fst_bounds (lines : List String) (p : Nat × String)
    (hp : p ∈ numberedLines lines) : 1 ≤ p.1 ∧ p.1 ≤ lines.length := by
  unfold numberedLines at hp
  rcases List.mem_map.mp hp with ⟨q, hq, rfl⟩
  have hq1 : q.1 ∈ lines.enum.map Prod.fst := List.mem_map_of_mem Prod.fst hq
  rw [List.enum_map_fst] at hq1
  have := List.mem_range.mp hq1
  constructor
  · omega
  · simpa using this

/-- Claim C10: whatever the oracle answers, a single detection trial returns
a strictly increasing list of distinct line numbers, each between 1 and the
number of input lines. -/
theorem detect_sorted_bounded (oracle : Nat → Nat → String) (lines : List String)
    (window_size overlap boundary_margin : Nat) (skips : List String) :
    List.Sorted (· < ·)
      (detect_conversation_turns_single oracle lines window_size overlap boundary_margin skips) ∧
    ∀ num ∈ detect_conversation_turns_single oracle lines window_size overlap boundary_margin skips,
      1 ≤ num ∧ num ≤ lines.length := by
  constructor
  · exact Finset.sort_sorted_lt _
  · intro num hnum
    rw [mem_detect_single] at hnum
    obtain ⟨wj, hwj, hx⟩ := hnum
    set windows :=
      split_nl_into_windows (filteredNumberedLines lines skips) window_size overlap with hwdef
    have hwin_mem : windows.getD wj [] ∈ windows := by
      rw [List.getD_eq_getElem _ _ hwj]
      exact List.getElem_mem hwj
    have hsub : ∀ x ∈ windows.getD wj [], x ∈ filteredNumberedLines lines skips := by
      cases haux : splitNlAux window_size overlap (filteredNumberedLines lines skips)
          ((filteredNumberedLines lines skips).length + 1) 0 with
      | none =>
          have hempty : windows = [] := by
            rw [hwdef]
            unfold split_nl_into_windows
            rw [haux]
            rfl
          rw [hempty] at hwj
          simp at hwj
      | some ws =>
          have hws : windows = ws := by
            rw [hwdef]
            unfold split_nl_into_windows
            rw [haux]
            rfl
          intro x hxw
          exact (splitNlAux_windows window_size overlap (filteredNumberedLines lines skips)
            ((filteredNumberedLines lines skips).length + 1) 0 ws haux
            (windows.getD wj []) (hws ▸ hwin_mem)).2 x hxw
    unfold windowTurns at hx
    by_cases hempty : windows.getD wj [] = []
    · rw [if_pos hempty] at hx
      exact absurd hx (Finset.not_mem_empty num)
    · rw [if_neg hempty] at hx
      cases hA : attemptLoop (oracle wj) with
      | none =>
          rw [hA] at hx
          exact absurd hx (Finset.not_mem_empty num)
      | some nums =>
          rw [hA] at hx
          rw [List.mem_toFinset] at hx
          have hmem := (List.mem_filter.mp hx).2
          simp only [decide_eq_true_eq] at hmem
          obtain ⟨hidx, _⟩ := hmem
          rcases List.mem_map.mp hidx with ⟨p, hpw, rfl⟩
          have hpf := hsub p hpw
          unfold filteredNumberedLines at hpf
          exact numbered_fst_bounds lines p (List.mem_filter.mp hpf).1

/-- Claim C7 is refuted on this input: with skip prefix the hash sign, the
second line is excluded and the filtered sequence keeps indices 1 and 3,
which are not contiguous. -/
theorem filtered_indices_not_contiguous :
    ¬ ((filteredNumberedLines [String.mk ['a'], String.mk ['#', 'b'], String.mk ['c']]
          [String.mk ['#']]).map Prod.fst =
        List.range' 1
          (filteredNumberedLines [String.mk ['a'], String.mk ['#', 'b'], String.mk ['c']]
            [String.mk ['#']]).length) := by
  decide

theorem numbered_map_fst_eq (lines : List String) :
    (numberedLines lines).map Prod.fst = List.range' 1 lines.length := by
  unfold numberedLines
  rw [List.map_map, List.range'_eq_map_range, ← List.enum_map_fst lines, List.map_map]
  exact List.map_congr_left (fun p _ => by simp [Function.comp]; omega)

theorem filtered_fst_sublist_range' (lines : List String) (skips : List String) :
    List.Sublist ((filteredNumberedLines lines skips).map Prod.fst)
      (List.range' 1 lines.length) := by
  have hsubl : List.Sublist ((filteredNumberedLines lines skips).map Prod.fst)
      ((numberedLines lines).map Prod.fst) :=
    (List.filter_sublist _).map Prod.fst
  rw [numbered_map_fst_eq] at hsubl
  exact hsubl

theorem filtered_fst_sorted (lines : List String) (skips : List String) :
    List.Sorted (· < ·) ((filteredNumberedLines lines skips).map Prod.fst) :=
  List.Pairwise.sublist (filtered_fst_sublist_range' lines skips)
    (List.pairwise_lt_range' 1 lines.length)

/-- Claim C7 (amended): line indices are 1-based and contiguous over the
full input sequence and are assigned once, before filtering; the filtered
sequence keeps its original indices, which are strictly increasing, unique
and within the input range, but not necessarily contiguous. -/
theorem filtered_indices_monotone (lines : List String) (skips : List String) :
    (numberedLines lines).map Prod.fst = List.range' 1 lines.length ∧
    List.Sorted (· < ·) ((filteredNumberedLines lines skips).map Prod.fst) ∧
    ∀ idx ∈ (filteredNumberedLines lines skips).map Prod.fst,
      1 ≤ idx ∧ idx ≤ lines.length := by
  refine ⟨numbered_map_fst_eq lines, filtered_fst_sorted lines skips, ?_⟩
  intro idx hidx
  have := List.mem_range'_1.mp ((filtered_fst_sublist_range' lines skips).mem hidx)
  omega


theorem window_coverage_witness :
    1 < 2 ∧
    ((∀ idx, (∃ w ∈ split_nl_into_windows sampleNl 2 1, idx ∈ w.map Prod.fst) ↔
        idx ∈ sampleNl.map Prod.fst) ∧
      (∀ w ∈ split_nl_into_windows sampleNl 2 1, w.length ≤ 2) ∧
      (sampleNl ≠ [] → (split_nl_into_windows sampleNl 2 1).headD [] = sampleNl.take 2)) :=
  ⟨by decide, window_coverage sampleNl 2 1 (by decide)⟩

theorem window_loop_terminates_witness :
    1 < 2 ∧
    (∃ ws, splitNlAux 2 1 sampleNl (sampleNl.length + 1) 0 = some ws ∧
      split_nl_into_windows sampleNl 2 1 = ws ∧
      (∀ k, k + 1 < ws.length → k * (2 - 1) + 2 < sampleNl.length) ∧
      (sampleNl ≠ [] → ∃ j, sampleNl.length ≤ j + 2 ∧ ws.getLast? = some (sampleNl.drop j))) :=
  ⟨by decide, window_loop_terminates sampleNl 2 1 (by decide)⟩

theorem window_overlap_shared_witness :
    1 < 2 ∧ sampleNl.Nodup ∧ 0 + 1 < (split_nl_into_windows sampleNl 2 1).length ∧
    (((split_nl_into_windows sampleNl 2 1).getD 0 []).filter
        (fun x => decide (x ∈ (split_nl_into_windows sampleNl 2 1).getD (0 + 1) []))).length = 1 :=
  ⟨by decide, by decide, by decide,
   window_overlap_shared sampleNl 2 1 (by decide) (by decide) 0 (by decide)⟩


/-- The filtered numbered lines always have pairwise distinct entries, since
their line numbers are strictly increasing; the Nodup hypothesis of the
overlap theorem therefore holds for every window input the pipeline builds. -/
theorem filteredNumberedLines_nodup (lines : List String) (skips : List String) :
    (filteredNumberedLines lines skips).Nodup := by
  have hp : ((filteredNumberedLines lines skips).map Prod.fst).Pairwise (· < ·) :=
    filtered_fst_sorted lines skips
  rw [List.pairwise_map] at hp
  exact hp.imp (fun hlt heq => absurd (congrArg Prod.fst heq) (Nat.ne_of_lt hlt))

end Paracom
